import Mathlib

/-!
Shallow embedding of the fish-shell topic monitor (`src/topic_monitor.rs`).

Machine integers are modelled as `Nat`: the status word is a `u8` (always
`< 256` in reachable states, proved as an invariant), and generations are
`u64` counters whose overflow is unreachable in practice (the sentinel
`INVALID_GENERATION` is `2 ^ 64 - 1`).

Lock-free compare-and-swap retry loops are modelled at their linearization
point: the successful CAS is one atomic step acting on the status value it
captured.  Fatal `assert!` calls are modelled by returning `none` (for
`post` and `updated_gens_in_data`) or a dedicated `assertionFailed` result
(for `check`).
-/

set_option autoImplicit false

/-- The list of topics which may be observed (`enum Topic`). -/
inductive Topic where
  | sighupint
  | sigchld
  | internal_exit
deriving DecidableEq

/-- The `#[repr(u8)]` discriminant of a topic. -/
def Topic.toIndex : Topic → Nat
  | .sighupint => 0
  | .sigchld => 1
  | .internal_exit => 2

/-- `topic_to_bit`: `1 << (t as u8)`. -/
def topic_to_bit (t : Topic) : Nat := 1 <<< t.toIndex

/-- `all_topics()`: the three topics in declaration order. -/
def all_topics : List Topic := [.sighupint, .sigchld, .internal_exit]

/-- `INVALID_GENERATION`: `u64::MAX`, the sentinel meaning "not of interest". -/
def INVALID_GENERATION : Nat := 2 ^ 64 - 1

/-- `GenerationsList`: one generation value per topic (the `Cell<u64>` interior
mutability is modelled by passing updated copies). -/
structure GenerationsList where
  sighupint : Nat
  sigchld : Nat
  internal_exit : Nat
deriving DecidableEq

/-- `GenerationsList::new` / the derived `Default`: all fields zero. -/
def GenerationsList.new : GenerationsList := ⟨0, 0, 0⟩

/-- `GenerationsList::invalid`: all fields are the sentinel. -/
def GenerationsList.invalid : GenerationsList :=
  ⟨INVALID_GENERATION, INVALID_GENERATION, INVALID_GENERATION⟩

/-- `GenerationsList::set`: set the generation for one topic. -/
def GenerationsList.set (g : GenerationsList) (t : Topic) (v : Nat) : GenerationsList :=
  match t with
  | .sighupint => { g with sighupint := v }
  | .sigchld => { g with sigchld := v }
  | .internal_exit => { g with internal_exit := v }

/-- `GenerationsList::get`: the generation for one topic. -/
def GenerationsList.get (g : GenerationsList) (t : Topic) : Nat :=
  match t with
  | .sighupint => g.sighupint
  | .sigchld => g.sigchld
  | .internal_exit => g.internal_exit

/-- `GenerationsList::as_array`: the three values in topic order. -/
def GenerationsList.as_array (g : GenerationsList) : List Nat :=
  [g.sighupint, g.sigchld, g.internal_exit]

/-- `GenerationsList::is_valid`: the value differs from the sentinel. -/
def GenerationsList.is_valid (g : GenerationsList) (t : Topic) : Bool :=
  g.get t != INVALID_GENERATION

/-- `GenerationsList::any_valid`: the source loops over `as_array` setting a
flag whenever an entry differs from the sentinel. -/
def GenerationsList.any_valid (g : GenerationsList) : Bool :=
  g.as_array.foldl (fun valid gen => if gen != INVALID_GENERATION then true else valid) false

/-- `GenerationsList::update`: overwrite `self` with `other`'s values. -/
def GenerationsList.update (_g other : GenerationsList) : GenerationsList := other

/-- `STATUS_NEEDS_WAKEUP`: sentinel status bit, `128`. -/
def STATUS_NEEDS_WAKEUP : Nat := 128

/-- Outcome of `TopicMonitor::post`: the status value installed by the CAS,
and whether `sema_.post()` was invoked. -/
structure PostIntent where
  newStatus : Nat
  signaled : Bool
deriving DecidableEq

/-- `TopicMonitor::post`, as a function of the status value captured by the
successful CAS.  The new status is the old with the wakeup bit cleared
(8-bit complement of `STATUS_NEEDS_WAKEUP` is `255 ^^^ 128 = 127`) and the
topic bit set.  `none` models the fatal `assert!` that the wakeup bit never
coexists with a topic bit. -/
def post (status : Nat) (t : Topic) : Option PostIntent :=
  let topicbit := topic_to_bit t
  let oldstatus := status
  let newstatus := (oldstatus &&& (255 ^^^ STATUS_NEEDS_WAKEUP)) ||| topicbit
  if !((oldstatus == STATUS_NEEDS_WAKEUP) == (oldstatus &&& STATUS_NEEDS_WAKEUP != 0)) then
    none
  else if oldstatus &&& topicbit != 0 then
    some ⟨newstatus, false⟩
  else if oldstatus &&& STATUS_NEEDS_WAKEUP != 0 then
    some ⟨newstatus, true⟩
  else
    some ⟨newstatus, false⟩

/-- Outcome of `TopicMonitor::updated_gens_in_data`: the ledger and status
after the flush, the returned snapshot, and whether `notify_all` ran. -/
structure FlushResult where
  newCurrent : GenerationsList
  newStatus : Nat
  snapshot : GenerationsList
  notified : Bool
deriving DecidableEq

/-- `TopicMonitor::updated_gens_in_data`, as a function of the status value
captured by the successful CAS and of the locked ledger.  If the status is
`0` or `STATUS_NEEDS_WAKEUP` the ledger is returned unchanged; otherwise the
status is swapped to `0` and every captured topic's generation is
incremented by one.  `none` models the fatal `assert!` that the captured
bits never contain the wakeup bit. -/
def updated_gens_in_data (status : Nat) (current : GenerationsList) : Option FlushResult :=
  let changed_topic_bits := status
  if changed_topic_bits == 0 || changed_topic_bits == STATUS_NEEDS_WAKEUP then
    some ⟨current, status, current, false⟩
  else if changed_topic_bits &&& STATUS_NEEDS_WAKEUP != 0 then
    none
  else
    let newCurrent := all_topics.foldl
      (fun cur t =>
        if changed_topic_bits &&& topic_to_bit t != 0 then cur.set t (cur.get t + 1) else cur)
      current
    some ⟨newCurrent, 0, newCurrent, true⟩

/-- Result of `TopicMonitor::check`: a normal return with the changed flag
and the updated caller snapshot, a fatal assertion, or blocking forever
(the supplied list of `await_gens` results was exhausted). -/
inductive CheckResult where
  | ok (changed : Bool) (gens : GenerationsList)
  | assertionFailed
  | blocked
deriving DecidableEq

/-- One topic of the `for topic in all_topics()` loop inside `check`:
for a valid topic, `assert!(gens[t] <= current[t])`, and on strict
inequality copy the newer value and mark changed. -/
def check_topic (current : GenerationsList) (acc : Option (GenerationsList × Bool))
    (t : Topic) : Option (GenerationsList × Bool) :=
  match acc with
  | none => none
  | some (g, changed) =>
    if g.is_valid t then
      if g.get t ≤ current.get t then
        if g.get t < current.get t then some (g.set t (current.get t), true)
        else some (g, changed)
      else none
    else some (g, changed)

/-- One full pass of the topic loop inside `check`. -/
def check_pass (current gens : GenerationsList) (changed : Bool) :
    Option (GenerationsList × Bool) :=
  all_topics.foldl (check_topic current) (some (gens, changed))

/-- The `loop` inside `check`.  `awaits` supplies the successive snapshots
returned by `await_gens` (driven by the concurrent environment); an
exhausted list models a call that is still blocked. -/
def check_loop (wait : Bool) : GenerationsList → GenerationsList → Bool →
    List GenerationsList → CheckResult
  | current, gens, changed, awaits =>
    match check_pass current gens changed with
    | none => .assertionFailed
    | some (g, ch) =>
      if !wait || ch then .ok ch g
      else
        match awaits with
        | [] => .blocked
        | c :: rest => check_loop wait c g ch rest

/-- Return value of `check` together with the monitor state it left behind.
For the early-return path and for `wait = false` the ledger/status fields
are exact; once the loop hands off to `await_gens` the monitor evolves with
the environment and the fields record the state after the initial flush. -/
structure CheckOutcome where
  result : CheckResult
  ledger : GenerationsList
  status : Nat
deriving DecidableEq

/-- `TopicMonitor::check`: early-return when no topic is valid, otherwise
flush (`updated_gens`) and run the topic loop. -/
def check (status : Nat) (cur gens : GenerationsList) (wait : Bool)
    (awaits : List GenerationsList) : CheckOutcome :=
  if !gens.any_valid then ⟨.ok false gens, cur, status⟩
  else
    match updated_gens_in_data status cur with
    | none => ⟨.assertionFailed, cur, 0⟩
    | some fr => ⟨check_loop wait fr.snapshot gens false awaits, fr.newCurrent, fr.newStatus⟩

/-- Phase of one thread with respect to the single-reader election:
`out` (not the reader, possibly blocked on the condition variable),
`reading` (inside `sema_.wait()`), `waking` (returned from `sema_.wait()`
but `has_reader` not yet cleared). -/
inductive Phase where
  | out
  | reading
  | waking
deriving DecidableEq

/-- Whole-monitor state: the atomic status word, the lock-protected ledger
and reader flag, the semaphore's count, and every thread's phase. -/
structure MState where
  status : Nat
  current : GenerationsList
  has_reader : Bool
  sema : Nat
  threads : Nat → Phase

/-- The state of the freshly constructed `TopicMonitor` (all fields
`Default`): status `0`, all-zero ledger, no reader, no pending wakeup. -/
def initState : MState :=
  ⟨0, GenerationsList.new, false, 0, fun _ => Phase.out⟩

/-- Interleaved small steps of the monitor protocol.  `post` and `flush`
act at the linearization point of their CAS; `becomeReader` is the
CAS `0 → STATUS_NEEDS_WAKEUP` performed with the lock held while
`has_reader` is false (`try_update_gens_maybe_becoming_reader`);
`wake` is `sema_.wait()` returning inside `await_gens`; `finishWake`
reacquires the lock and clears `has_reader`. -/
inductive Step : MState → MState → Prop where
  | post (s : MState) (t : Topic) (r : PostIntent) :
      post s.status t = some r →
      Step s { s with
        status := r.newStatus
        sema := if r.signaled then s.sema + 1 else s.sema }
  | flush (s : MState) (fr : FlushResult) :
      updated_gens_in_data s.status s.current = some fr →
      Step s { s with current := fr.newCurrent, status := fr.newStatus }
  | becomeReader (s : MState) (tid : Nat) :
      s.threads tid = .out → s.has_reader = false → s.status = 0 →
      Step s { s with
        status := STATUS_NEEDS_WAKEUP
        has_reader := true
        threads := fun n => if n = tid then .reading else s.threads n }
  | wake (s : MState) (tid : Nat) :
      s.threads tid = .reading → 0 < s.sema →
      Step s { s with
        sema := s.sema - 1
        threads := fun n => if n = tid then .waking else s.threads n }
  | finishWake (s : MState) (tid : Nat) :
      s.threads tid = .waking →
      Step s { s with
        has_reader := false
        threads := fun n => if n = tid then .out else s.threads n }

/-- Reflexive-transitive closure of `Step`: `Reach a b` holds when the
monitor can evolve from state `a` to state `b`. -/
inductive Reach : MState → MState → Prop where
  | refl (s : MState) : Reach s s
  | tail {s t u : MState} : Reach s t → Step t u → Reach s u

/-- A state reachable from the freshly constructed monitor. -/
def Reachable (s : MState) : Prop := Reach initState s

/-- `N` consecutive `post(t)` calls with no intervening flush, threading the
status word through each linearized CAS; `none` if any call hits its fatal
assertion. -/
def postN (status : Nat) (t : Topic) : Nat → Option Nat
  | 0 => some status
  | n + 1 =>
    match post status t with
    | none => none
    | some r => postN r.newStatus t n

/-! ### Bit-level helper lemmas -/

lemma testBit_one_eq (k : Nat) : (1 : Nat).testBit k = decide (k = 0) := by
  have h := Nat.testBit_two_pow_sub_one 1 k
  norm_num at h
  exact h

lemma testBit_topic_to_bit (t : Topic) (i : Nat) :
    (topic_to_bit t).testBit i = decide (i = t.toIndex) := by
  rw [topic_to_bit, Nat.testBit_shiftLeft, testBit_one_eq]
  by_cases h : i = t.toIndex
  · subst h; simp
  · rcases Nat.lt_or_ge i t.toIndex with h2 | h2
    · simp [Nat.not_le.mpr h2, h]
    · have h3 : ¬ (i - t.toIndex = 0) := by omega
      simp [h3, h]

lemma testBit_128_eq (i : Nat) : (128 : Nat).testBit i = decide (i = 7) := by
  have h : (128 : Nat) = 1 <<< 7 := rfl
  rw [h, Nat.testBit_shiftLeft, testBit_one_eq]
  by_cases h7 : i = 7
  · subst h7; simp
  · rcases Nat.lt_or_ge i 7 with h2 | h2
    · simp [Nat.not_le.mpr h2, h7]
    · have h3 : ¬ (i - 7 = 0) := by omega
      simp [h3, h7]

lemma land_128_eq_zero_of_lt {x : Nat} (h : x < 128) : x &&& 128 = 0 := by
  apply Nat.eq_of_testBit_eq
  intro i
  simp only [Nat.testBit_and, Nat.zero_testBit, testBit_128_eq]
  by_cases h7 : i = 7
  · subst h7
    have : x.testBit 7 = false := Nat.testBit_lt_two_pow (by norm_num [h])
    simp [this]
  · simp [h7]

lemma land_127_of_lt {x : Nat} (h : x < 128) : x &&& 127 = x := by
  have h1 : (127 : Nat) = 2 ^ 7 - 1 := rfl
  rw [h1]
  exact Nat.and_pow_two_sub_one_of_lt_two_pow (by norm_num [h])

lemma land_127_lt (x : Nat) : x &&& 127 < 128 := by
  have := Nat.and_le_right (n := x) (m := 127)
  omega

lemma topic_to_bit_lt (t : Topic) : topic_to_bit t < 128 := by cases t <;> decide

lemma topic_to_bit_ne_zero (t : Topic) : topic_to_bit t ≠ 0 := by cases t <;> decide

lemma land_topic_bit_128 (t : Topic) : topic_to_bit t &&& 128 = 0 := by cases t <;> decide

lemma newStatus_lt_128 (s : Nat) (t : Topic) : (s &&& 127) ||| topic_to_bit t < 128 := by
  have h1 : s &&& 127 < 2 ^ 7 := by
    have := land_127_lt s
    norm_num
    omega
  have h2 : topic_to_bit t < 2 ^ 7 := by
    have := topic_to_bit_lt t
    norm_num
    omega
  have := Nat.or_lt_two_pow h1 h2
  norm_num at this
  omega

lemma lor_topic_bit_ne_zero (c : Nat) (t : Topic) : c ||| topic_to_bit t ≠ 0 := by
  intro h
  have h1 : (c ||| topic_to_bit t).testBit t.toIndex = false := by
    rw [h]; exact Nat.zero_testBit _
  rw [Nat.testBit_or, testBit_topic_to_bit] at h1
  simp at h1

/-! ### GenerationsList helper lemmas -/

lemma exists_topic_iff (p : Topic → Prop) :
    (∃ t, p t) ↔ p .sighupint ∨ p .sigchld ∨ p .internal_exit := by
  constructor
  · rintro ⟨t, h⟩
    cases t <;> tauto
  · rintro (h | h | h) <;> exact ⟨_, h⟩

lemma get_set_same (g : GenerationsList) (t : Topic) (v : Nat) :
    (g.set t v).get t = v := by
  cases t <;> rfl

lemma get_set_ne (g : GenerationsList) (t u : Topic) (v : Nat) (h : t ≠ u) :
    (g.set t v).get u = g.get u := by
  cases t <;> cases u <;> first | rfl | exact absurd rfl h

lemma any_valid_cases (g : GenerationsList) :
    g.any_valid = (g.is_valid .sighupint || g.is_valid .sigchld || g.is_valid .internal_exit) := by
  obtain ⟨a, b, c⟩ := g
  simp only [GenerationsList.any_valid, GenerationsList.as_array, List.foldl,
    GenerationsList.is_valid, GenerationsList.get]
  cases ha : a != INVALID_GENERATION <;> cases hb : b != INVALID_GENERATION <;>
    cases hc : c != INVALID_GENERATION <;> simp [ha, hb, hc]

lemma any_valid_eq_false_iff (g : GenerationsList) :
    g.any_valid = false ↔ ∀ t, g.is_valid t = false := by
  rw [any_valid_cases]
  constructor
  · intro h t
    cases t <;> revert h <;> cases h1 : g.is_valid .sighupint <;>
      cases h2 : g.is_valid .sigchld <;> cases h3 : g.is_valid .internal_exit <;> simp
  · intro h
    simp [h .sighupint, h .sigchld, h .internal_exit]

/-! ### Characterization of post -/

lemma post_assert_passes {s : Nat} (hOK : s &&& 128 ≠ 0 → s = 128) :
    ((s == STATUS_NEEDS_WAKEUP) == (s &&& STATUS_NEEDS_WAKEUP != 0)) = true := by
  show ((s == 128) == (s &&& 128 != 0)) = true
  by_cases h : s &&& 128 = 0
  · have hne : s ≠ 128 := by
      intro he
      rw [he] at h
      simp at h
    simp [h, hne]
  · have he := hOK h
    subst he
    simp

lemma post_eq_of_ok {s : Nat} (t : Topic) (hOK : s &&& 128 ≠ 0 → s = 128) :
    post s t = some ⟨(s &&& 127) ||| topic_to_bit t,
      (s &&& topic_to_bit t == 0) && (s &&& 128 != 0)⟩ := by
  simp only [post, STATUS_NEEDS_WAKEUP]
  have h255 : (255 ^^^ (128 : Nat)) = 127 := rfl
  rw [h255]
  by_cases hw : s &&& 128 = 0
  · have hne : s ≠ 128 := by
      intro he
      subst he
      exact absurd hw (by decide)
    by_cases hbit : s &&& topic_to_bit t = 0
    · simp [hbit, hw, hne]
    · simp [hbit, hw, hne]
  · have he := hOK hw
    subst he
    have hbit : (128 : Nat) &&& topic_to_bit t = 0 := by cases t <;> decide
    simp [hbit]

/-! ### Characterization of the flush -/

lemma flush_fold_get (bits : Nat) (cur : GenerationsList) (t : Topic) :
    (all_topics.foldl
      (fun c tt => if bits &&& topic_to_bit tt != 0 then c.set tt (c.get tt + 1) else c)
      cur).get t =
      if bits &&& topic_to_bit t != 0 then cur.get t + 1 else cur.get t := by
  obtain ⟨a, b, c⟩ := cur
  cases t <;>
    simp only [all_topics, List.foldl] <;>
    by_cases h1 : bits &&& topic_to_bit .sighupint != 0 <;>
    by_cases h2 : bits &&& topic_to_bit .sigchld != 0 <;>
    by_cases h3 : bits &&& topic_to_bit .internal_exit != 0 <;>
    simp [h1, h2, h3, GenerationsList.set, GenerationsList.get]

lemma flush_unchanged (status : Nat) (cur : GenerationsList)
    (h : status = 0 ∨ status = 128) :
    updated_gens_in_data status cur = some ⟨cur, status, cur, false⟩ := by
  rcases h with h | h <;> subst h <;> rfl

lemma flush_updates (status : Nat) (cur : GenerationsList)
    (h0 : status ≠ 0) (h128 : status ≠ 128) (hw : status &&& 128 = 0) :
    updated_gens_in_data status cur = some
      ⟨all_topics.foldl
        (fun c tt => if status &&& topic_to_bit tt != 0 then c.set tt (c.get tt + 1) else c)
        cur, 0,
      all_topics.foldl
        (fun c tt => if status &&& topic_to_bit tt != 0 then c.set tt (c.get tt + 1) else c)
        cur, true⟩ := by
  simp [updated_gens_in_data, STATUS_NEEDS_WAKEUP, h0, h128, hw]

lemma flush_some_cases {status : Nat} {cur : GenerationsList} {fr : FlushResult}
    (h : updated_gens_in_data status cur = some fr) :
    fr = ⟨cur, status, cur, false⟩ ∨
      (∀ t, fr.newCurrent.get t =
        if status &&& topic_to_bit t != 0 then cur.get t + 1 else cur.get t) ∧
        fr.newStatus = 0 := by
  by_cases h1 : status = 0 ∨ status = 128
  · rw [flush_unchanged status cur h1] at h
    cases h
    exact Or.inl rfl
  · push_neg at h1
    by_cases hw : status &&& 128 = 0
    · rw [flush_updates status cur h1.1 h1.2 hw] at h
      cases h
      exact Or.inr ⟨fun t => flush_fold_get status cur t, rfl⟩
    · exfalso
      have : updated_gens_in_data status cur = none := by
        simp [updated_gens_in_data, STATUS_NEEDS_WAKEUP, h1.1, h1.2, hw]
      rw [this] at h
      exact Option.noConfusion h

lemma flush_mono {status : Nat} {cur : GenerationsList} {fr : FlushResult}
    (h : updated_gens_in_data status cur = some fr) (t : Topic) :
    cur.get t ≤ fr.newCurrent.get t := by
  rcases flush_some_cases h with h1 | h1
  · subst h1; exact Nat.le_refl _
  · rw [h1.1 t]
    split <;> omega

lemma flush_status_cases {status : Nat} {cur : GenerationsList} {fr : FlushResult}
    (h : updated_gens_in_data status cur = some fr) :
    fr.newStatus = status ∨ fr.newStatus = 0 := by
  rcases flush_some_cases h with h1 | h1
  · subst h1; exact Or.inl rfl
  · exact Or.inr h1.2

/-! ### Characterization of the check loop -/

lemma check_topic_none (current : GenerationsList) (t : Topic) :
    check_topic current none t = none := rfl

lemma foldl_check_topic_none (current : GenerationsList) (l : List Topic) :
    l.foldl (check_topic current) none = none := by
  induction l with
  | nil => rfl
  | cons t ts ih => rw [List.foldl_cons, check_topic_none]; exact ih

lemma check_topic_changed {current g0 g1 : GenerationsList} {c0 c1 : Bool} {t : Topic}
    (h : check_topic current (some (g0, c0)) t = some (g1, c1)) :
    (g1 = g0 ∧ c1 = c0) ∨ c1 = true := by
  simp only [check_topic] at h
  split at h
  · split at h
    · split at h
      · simp only [Option.some.injEq, Prod.mk.injEq] at h
        exact Or.inr h.2.symm
      · simp only [Option.some.injEq, Prod.mk.injEq] at h
        exact Or.inl ⟨h.1.symm, h.2.symm⟩
    · exact Option.noConfusion h
  · simp only [Option.some.injEq, Prod.mk.injEq] at h
    exact Or.inl ⟨h.1.symm, h.2.symm⟩

lemma foldl_check_topic_changed {current : GenerationsList} {l : List Topic}
    {g0 g : GenerationsList} {c0 ch : Bool}
    (h : l.foldl (check_topic current) (some (g0, c0)) = some (g, ch)) :
    (g = g0 ∧ ch = c0) ∨ ch = true := by
  induction l generalizing g0 c0 with
  | nil =>
    simp only [List.foldl_nil, Option.some.injEq, Prod.mk.injEq] at h
    exact Or.inl ⟨h.1.symm, h.2.symm⟩
  | cons t ts ih =>
    rw [List.foldl_cons] at h
    cases hstep : check_topic current (some (g0, c0)) t with
    | none =>
      rw [hstep, foldl_check_topic_none] at h
      exact Option.noConfusion h
    | some p =>
      obtain ⟨g1, c1⟩ := p
      rw [hstep] at h
      rcases ih h with ⟨hg, hc⟩ | hc
      · rcases check_topic_changed hstep with ⟨hg1, hc1⟩ | hc1
        · exact Or.inl ⟨hg.trans hg1, hc.trans hc1⟩
        · exact Or.inr (hc.trans hc1)
      · exact Or.inr hc

lemma check_pass_changed {current gens g : GenerationsList} {c0 ch : Bool}
    (h : check_pass current gens c0 = some (g, ch)) :
    (g = gens ∧ ch = c0) ∨ ch = true :=
  foldl_check_topic_changed h

lemma check_loop_ok_false {wait : Bool} {current gens g : GenerationsList} {changed : Bool}
    {awaits : List GenerationsList}
    (h : check_loop wait current gens changed awaits = .ok false g) :
    g = gens ∧ changed = false := by
  induction awaits generalizing current gens changed with
  | nil =>
    rw [check_loop] at h
    cases hp : check_pass current gens changed with
    | none => simp only [hp] at h; exact CheckResult.noConfusion h
    | some p =>
      obtain ⟨g1, c1⟩ := p
      simp only [hp] at h
      by_cases hc : (!wait || c1) = true
      · rw [if_pos hc] at h
        simp only [CheckResult.ok.injEq] at h
        rcases check_pass_changed hp with ⟨hg, hcc⟩ | hcc
        · exact ⟨h.2.symm.trans hg, hcc.symm.trans h.1⟩
        · rw [hcc] at h
          exact absurd h.1 (by simp)
      · rw [if_neg hc] at h
        exact CheckResult.noConfusion h
  | cons a rest ih =>
    rw [check_loop] at h
    cases hp : check_pass current gens changed with
    | none => simp only [hp] at h; exact CheckResult.noConfusion h
    | some p =>
      obtain ⟨g1, c1⟩ := p
      simp only [hp] at h
      by_cases hc : (!wait || c1) = true
      · rw [if_pos hc] at h
        simp only [CheckResult.ok.injEq] at h
        rcases check_pass_changed hp with ⟨hg, hcc⟩ | hcc
        · exact ⟨h.2.symm.trans hg, hcc.symm.trans h.1⟩
        · rw [hcc] at h
          exact absurd h.1 (by simp)
      · rw [if_neg hc] at h
        have hrec := ih h
        have hc1 : c1 = false := by
          cases c1
          · rfl
          · simp at hc
        rcases check_pass_changed hp with ⟨hg, hcc⟩ | hcc
        · exact ⟨hrec.1.trans hg, hcc.symm.trans hc1⟩
        · exact absurd (hcc.symm.trans hc1) (by simp)

lemma check_of_any_valid_false {status : Nat} {cur gens : GenerationsList} {wait : Bool}
    {awaits : List GenerationsList} (hv : gens.any_valid = false) :
    check status cur gens wait awaits = ⟨.ok false gens, cur, status⟩ := by
  simp [check, hv]

lemma check_of_any_valid_true {status : Nat} {cur gens : GenerationsList} {wait : Bool}
    {awaits : List GenerationsList} {fr : FlushResult} (hv : gens.any_valid = true)
    (hfr : updated_gens_in_data status cur = some fr) :
    check status cur gens wait awaits =
      ⟨check_loop wait fr.snapshot gens false awaits, fr.newCurrent, fr.newStatus⟩ := by
  simp [check, hv, hfr]

lemma is_valid_set_ne (g : GenerationsList) (t u : Topic) (v : Nat) (h : t ≠ u) :
    (g.set t v).is_valid u = g.is_valid u := by
  simp [GenerationsList.is_valid, get_set_ne g t u v h]

lemma mem_all_topics (t : Topic) : t ∈ all_topics := by
  cases t <;> simp [all_topics]

lemma all_topics_nodup : all_topics.Nodup := by decide

lemma foldl_check_topic_correct (current : GenerationsList) :
    ∀ (l : List Topic) (g0 : GenerationsList) (c0 : Bool),
      l.Nodup →
      (∀ t, t ∈ l → g0.is_valid t = true → g0.get t ≤ current.get t) →
      ∃ g ch, l.foldl (check_topic current) (some (g0, c0)) = some (g, ch) ∧
        (ch = true ↔ c0 = true ∨
          ∃ t, t ∈ l ∧ g0.is_valid t = true ∧ g0.get t < current.get t) ∧
        (∀ t, t ∈ l → g.get t =
          if g0.is_valid t = true ∧ g0.get t < current.get t
          then current.get t else g0.get t) ∧
        (∀ t, t ∉ l → g.get t = g0.get t) := by
  intro l
  induction l with
  | nil =>
    intro g0 c0 _ _
    refine ⟨g0, c0, rfl, by simp, by simp, fun t _ => rfl⟩
  | cons t ts ih =>
    intro g0 c0 hnd hle
    have hndts : ts.Nodup := (List.nodup_cons.mp hnd).2
    have htni : t ∉ ts := (List.nodup_cons.mp hnd).1
    by_cases hv : g0.is_valid t = true
    · have hle0 : g0.get t ≤ current.get t := hle t (by simp) hv
      rcases Nat.eq_or_lt_of_le hle0 with heq | hlt
      · have hstep : check_topic current (some (g0, c0)) t = some (g0, c0) := by
          simp only [check_topic, hv, if_true]
          rw [if_pos hle0, if_neg (by omega)]
        rw [List.foldl_cons, hstep]
        obtain ⟨g, ch, hfold, hiff, hin, hout⟩ :=
          ih g0 c0 hndts (fun u hu => hle u (by simp [hu]))
        refine ⟨g, ch, hfold, ?_, ?_, ?_⟩
        · rw [hiff]
          constructor
          · rintro (h | ⟨u, hu, hvj, hlj⟩)
            · exact Or.inl h
            · exact Or.inr ⟨u, by simp [hu], hvj, hlj⟩
          · rintro (h | ⟨u, hu, hvj, hlj⟩)
            · exact Or.inl h
            · rcases List.mem_cons.mp hu with rfl | hu2
              · omega
              · exact Or.inr ⟨u, hu2, hvj, hlj⟩
        · intro u hu
          rcases List.mem_cons.mp hu with rfl | hu2
          · rw [hout u htni, if_neg (by omega)]
          · exact hin u hu2
        · intro u hu
          exact hout u (fun hc => hu (by simp [hc]))
      · have hstep : check_topic current (some (g0, c0)) t =
            some (g0.set t (current.get t), true) := by
          simp only [check_topic, hv, if_true]
          rw [if_pos hle0, if_pos hlt]
        rw [List.foldl_cons, hstep]
        have hle1 : ∀ u, u ∈ ts → (g0.set t (current.get t)).is_valid u = true →
            (g0.set t (current.get t)).get u ≤ current.get u := by
          intro u hu hvu
          have hne : t ≠ u := fun he => htni (he ▸ hu)
          rw [get_set_ne g0 t u _ hne]
          rw [is_valid_set_ne g0 t u _ hne] at hvu
          exact hle u (by simp [hu]) hvu
        obtain ⟨g, ch, hfold, hiff, hin, hout⟩ :=
          ih (g0.set t (current.get t)) true hndts hle1
        refine ⟨g, ch, hfold, ?_, ?_, ?_⟩
        · constructor
          · intro _
            exact Or.inr ⟨t, by simp, hv, hlt⟩
          · intro _
            exact hiff.mpr (Or.inl rfl)
        · intro u hu
          rcases List.mem_cons.mp hu with rfl | hu2
          · rw [hout u htni, get_set_same, if_pos ⟨hv, hlt⟩]
          · have hne : t ≠ u := fun he => htni (he ▸ hu2)
            rw [hin u hu2, is_valid_set_ne g0 t u _ hne, get_set_ne g0 t u _ hne]
        · intro u hu
          have hne : t ≠ u := fun he => hu (by simp [he.symm])
          rw [hout u (fun hc => hu (by simp [hc])), get_set_ne g0 t u _ hne]
    · have hstep : check_topic current (some (g0, c0)) t = some (g0, c0) := by
        simp only [check_topic]
        rw [if_neg (by simp [hv])]
      rw [List.foldl_cons, hstep]
      obtain ⟨g, ch, hfold, hiff, hin, hout⟩ :=
        ih g0 c0 hndts (fun u hu => hle u (by simp [hu]))
      refine ⟨g, ch, hfold, ?_, ?_, ?_⟩
      · rw [hiff]
        constructor
        · rintro (h | ⟨u, hu, hvj, hlj⟩)
          · exact Or.inl h
          · exact Or.inr ⟨u, by simp [hu], hvj, hlj⟩
        · rintro (h | ⟨u, hu, hvj, hlj⟩)
          · exact Or.inl h
          · rcases List.mem_cons.mp hu with rfl | hu2
            · exact absurd hvj hv
            · exact Or.inr ⟨u, hu2, hvj, hlj⟩
      · intro u hu
        rcases List.mem_cons.mp hu with rfl | hu2
        · rw [hout u htni, if_neg (fun hc => hv hc.1)]
        · exact hin u hu2
      · intro u hu
        exact hout u (fun hc => hu (by simp [hc]))

lemma foldl_check_topic_assert (current : GenerationsList) :
    ∀ (l : List Topic) (g0 : GenerationsList) (c0 : Bool),
      l.Nodup →
      (∃ t, t ∈ l ∧ g0.is_valid t = true ∧ current.get t < g0.get t) →
      l.foldl (check_topic current) (some (g0, c0)) = none := by
  intro l
  induction l with
  | nil =>
    rintro g0 c0 _ ⟨t, ht, _⟩
    exact absurd ht (List.not_mem_nil t)
  | cons t ts ih =>
    rintro g0 c0 hnd ⟨u, hu, hvu, hltu⟩
    have hndts : ts.Nodup := (List.nodup_cons.mp hnd).2
    have htni : t ∉ ts := (List.nodup_cons.mp hnd).1
    by_cases hviol : g0.is_valid t = true ∧ current.get t < g0.get t
    · have hstep : check_topic current (some (g0, c0)) t = none := by
        simp only [check_topic, hviol.1, if_true]
        rw [if_neg (by omega)]
      rw [List.foldl_cons, hstep, foldl_check_topic_none]
    · have hu2 : u ∈ ts := by
        rcases List.mem_cons.mp hu with rfl | h2
        · exact absurd ⟨hvu, hltu⟩ hviol
        · exact h2
      have hne : t ≠ u := fun he => htni (he ▸ hu2)
      by_cases hv : g0.is_valid t = true
      · have hle0 : g0.get t ≤ current.get t := by
          by_contra hcon
          push_neg at hcon
          exact hviol ⟨hv, hcon⟩
        by_cases hlt : g0.get t < current.get t
        · have hstep : check_topic current (some (g0, c0)) t =
              some (g0.set t (current.get t), true) := by
            simp only [check_topic, hv, if_true]
            rw [if_pos hle0, if_pos hlt]
          rw [List.foldl_cons, hstep]
          apply ih _ _ hndts
          refine ⟨u, hu2, ?_, ?_⟩
          · rw [is_valid_set_ne g0 t u _ hne]
            exact hvu
          · rw [get_set_ne g0 t u _ hne]
            exact hltu
        · have hstep : check_topic current (some (g0, c0)) t = some (g0, c0) := by
            simp only [check_topic, hv, if_true]
            rw [if_pos hle0, if_neg hlt]
          rw [List.foldl_cons, hstep]
          exact ih _ _ hndts ⟨u, hu2, hvu, hltu⟩
      · have hstep : check_topic current (some (g0, c0)) t = some (g0, c0) := by
          simp only [check_topic]
          rw [if_neg (by simp [hv])]
        rw [List.foldl_cons, hstep]
        exact ih _ _ hndts ⟨u, hu2, hvu, hltu⟩

lemma check_pass_correct (current gens : GenerationsList)
    (hle : ∀ t, gens.is_valid t = true → gens.get t ≤ current.get t) :
    ∃ g ch, check_pass current gens false = some (g, ch) ∧
      (ch = true ↔ ∃ t, gens.is_valid t = true ∧ gens.get t < current.get t) ∧
      ∀ t, g.get t =
        if gens.is_valid t = true ∧ gens.get t < current.get t
        then current.get t else gens.get t := by
  obtain ⟨g, ch, hfold, hiff, hin, _⟩ :=
    foldl_check_topic_correct current all_topics gens false all_topics_nodup
      (fun t _ hv => hle t hv)
  refine ⟨g, ch, hfold, ?_, fun t => hin t (mem_all_topics t)⟩
  rw [hiff]
  constructor
  · rintro (h | ⟨u, _, hvj, hlj⟩)
    · exact absurd h (by simp)
    · exact ⟨u, hvj, hlj⟩
  · rintro ⟨u, hvj, hlj⟩
    exact Or.inr ⟨u, mem_all_topics u, hvj, hlj⟩

lemma check_pass_assert (current gens : GenerationsList) (c0 : Bool)
    (h : ∃ t, gens.is_valid t = true ∧ current.get t < gens.get t) :
    check_pass current gens c0 = none := by
  obtain ⟨u, hvu, hlu⟩ := h
  exact foldl_check_topic_assert current all_topics gens c0 all_topics_nodup
    ⟨u, mem_all_topics u, hvu, hlu⟩

/-! ### Claim theorems -/

/-- Claim C2: flush-and-read returns the ledger unchanged when the status
word is `0` or the wakeup-sentinel-only value; otherwise it swaps the status
to `0`, increments by exactly one the generation of each topic whose bit was
captured (and only those), notifies the condition variable, and returns the
updated snapshot. -/
theorem flush_and_read_correct (status : Nat) (cur : GenerationsList)
    (hOK : status &&& 128 ≠ 0 → status = 128) :
    (status = 0 ∨ status = 128 →
      updated_gens_in_data status cur = some ⟨cur, status, cur, false⟩) ∧
    (status ≠ 0 → status ≠ 128 →
      ∃ fr, updated_gens_in_data status cur = some fr ∧
        fr.newStatus = 0 ∧ fr.notified = true ∧ fr.snapshot = fr.newCurrent ∧
        ∀ t, fr.newCurrent.get t =
          if status &&& topic_to_bit t != 0 then cur.get t + 1 else cur.get t) := by
  refine ⟨fun h => flush_unchanged status cur h, fun h0 h128 => ?_⟩
  have hw : status &&& 128 = 0 := by
    by_cases hz : status &&& 128 = 0
    · exact hz
    · exact absurd (hOK hz) h128
  exact ⟨_, flush_updates status cur h0 h128 hw, rfl, rfl, rfl,
    fun t => flush_fold_get status cur t⟩

/-- Witness for C2 at the concrete status word `6` (sigchld and
internal_exit bits pending). -/
theorem flush_and_read_correct_witness :
    ((6 : Nat) = 0 ∨ (6 : Nat) = 128 →
      updated_gens_in_data 6 GenerationsList.new =
        some ⟨GenerationsList.new, 6, GenerationsList.new, false⟩) ∧
    ((6 : Nat) ≠ 0 → (6 : Nat) ≠ 128 →
      ∃ fr, updated_gens_in_data 6 GenerationsList.new = some fr ∧
        fr.newStatus = 0 ∧ fr.notified = true ∧ fr.snapshot = fr.newCurrent ∧
        ∀ t, fr.newCurrent.get t =
          if (6 : Nat) &&& topic_to_bit t != 0
          then GenerationsList.new.get t + 1 else GenerationsList.new.get t) :=
  flush_and_read_correct 6 GenerationsList.new (by decide)

/-- Claim C3: the status word installed by `post` is the old value with the
wakeup-sentinel bit (bit 7) cleared and the posted topic's bit set, all
other bits unchanged; the notifier is signaled exactly when the topic's bit
was clear and the wakeup bit was set in the old value. -/
theorem post_status_and_signal_correct (s : Nat) (t : Topic) (hlt : s < 256)
    (hOK : s &&& 128 ≠ 0 → s = 128) :
    ∃ r, post s t = some r ∧
      r.newStatus.testBit 7 = false ∧
      r.newStatus.testBit t.toIndex = true ∧
      (∀ i, i ≠ 7 → i ≠ t.toIndex → r.newStatus.testBit i = s.testBit i) ∧
      (r.signaled = true ↔ s &&& topic_to_bit t = 0 ∧ s &&& 128 ≠ 0) := by
  refine ⟨_, post_eq_of_ok t hOK, ?_, ?_, ?_, ?_⟩
  · have h127 : (127 : Nat).testBit 7 = false := by decide
    have hbit : (topic_to_bit t).testBit 7 = false := by cases t <;> decide
    simp [Nat.testBit_or, Nat.testBit_and, h127, hbit]
  · have hbit : (topic_to_bit t).testBit t.toIndex = true := by cases t <;> decide
    simp [Nat.testBit_or, hbit]
  · intro i h7 hidx
    rw [Nat.testBit_or, Nat.testBit_and, testBit_topic_to_bit]
    rcases Nat.lt_or_ge i 8 with hlt8 | hge8
    · have h127 : (127 : Nat).testBit i = true := by
        have h := Nat.testBit_two_pow_sub_one 7 i
        norm_num at h
        rw [h]
        simp
        omega
      simp [h127, hidx]
    · have hpow : (256 : Nat) ≤ 2 ^ i := by
        calc (256 : Nat) = 2 ^ 8 := by norm_num
        _ ≤ 2 ^ i := Nat.pow_le_pow_right (by norm_num) hge8
      have hs : s.testBit i = false :=
        Nat.testBit_lt_two_pow (Nat.lt_of_lt_of_le hlt hpow)
      have h127 : (127 : Nat).testBit i = false :=
        Nat.testBit_lt_two_pow (by omega)
      simp [hs, h127, hidx]
  · simp [Bool.and_eq_true, beq_iff_eq, bne_iff_ne]

/-- Witness for C3 at the concrete old status `128` (a reader is waiting)
and topic sigchld. -/
theorem post_status_and_signal_correct_witness :
    ∃ r, post 128 Topic.sigchld = some r ∧
      r.newStatus.testBit 7 = false ∧
      r.newStatus.testBit Topic.sigchld.toIndex = true ∧
      (∀ i, i ≠ 7 → i ≠ Topic.sigchld.toIndex → r.newStatus.testBit i = (128 : Nat).testBit i) ∧
      (r.signaled = true ↔ (128 : Nat) &&& topic_to_bit Topic.sigchld = 0 ∧
        (128 : Nat) &&& 128 ≠ 0) :=
  post_status_and_signal_correct 128 Topic.sigchld (by decide) (by decide)

/-- Claim C5: `check(gens, wait = false)`, when every valid entry of `gens`
is at most the flushed snapshot, returns true exactly when some valid topic
is strictly behind the snapshot, updating exactly those topics to the
snapshot value; a valid entry exceeding the snapshot hits the fatal
assertion. -/
theorem check_nowait_correct (status : Nat) (cur gens : GenerationsList) (fr : FlushResult)
    (hfr : updated_gens_in_data status cur = some fr) :
    ((∀ t, gens.is_valid t = true → gens.get t ≤ fr.snapshot.get t) →
      ∃ g ch, (check status cur gens false []).result = .ok ch g ∧
        (ch = true ↔ ∃ t, gens.is_valid t = true ∧ gens.get t < fr.snapshot.get t) ∧
        ∀ t, g.get t =
          if gens.is_valid t = true ∧ gens.get t < fr.snapshot.get t
          then fr.snapshot.get t else gens.get t) ∧
    ((∃ t, gens.is_valid t = true ∧ fr.snapshot.get t < gens.get t) →
      (check status cur gens false []).result = .assertionFailed) := by
  by_cases hv : gens.any_valid = true
  · rw [check_of_any_valid_true hv hfr]
    constructor
    · intro hle
      obtain ⟨g, ch, hpass, hiff, hget⟩ := check_pass_correct fr.snapshot gens hle
      refine ⟨g, ch, ?_, hiff, hget⟩
      show check_loop false fr.snapshot gens false [] = .ok ch g
      rw [check_loop]
      simp only [hpass]
      simp
    · intro hex
      have hpass := check_pass_assert fr.snapshot gens false hex
      show check_loop false fr.snapshot gens false [] = .assertionFailed
      rw [check_loop]
      simp only [hpass]
  · have hvf : gens.any_valid = false := by
      cases hq : gens.any_valid
      · rfl
      · exact absurd hq hv
    have hnv : ∀ t, gens.is_valid t = false := (any_valid_eq_false_iff gens).mp hvf
    rw [check_of_any_valid_false hvf]
    constructor
    · intro _
      refine ⟨gens, false, rfl, ?_, ?_⟩
      · constructor
        · intro h
          exact absurd h (by simp)
        · rintro ⟨u, hvu, _⟩
          rw [hnv u] at hvu
          exact Bool.noConfusion hvu
      · intro t
        rw [if_neg (fun hc => by rw [hnv t] at hc; exact Bool.noConfusion hc.1)]
    · rintro ⟨u, hvu, _⟩
      rw [hnv u] at hvu
      exact Bool.noConfusion hvu

/-- Witness for C5: ledger snapshot `⟨0, 1, 0⟩`, caller interested in
sigchld only, one generation behind. -/
theorem check_nowait_correct_witness :
    ((∀ t, (GenerationsList.mk INVALID_GENERATION 0 INVALID_GENERATION).is_valid t = true →
        (GenerationsList.mk INVALID_GENERATION 0 INVALID_GENERATION).get t ≤
          (FlushResult.mk ⟨0, 1, 0⟩ 0 ⟨0, 1, 0⟩ false).snapshot.get t) →
      ∃ g ch,
        (check 0 ⟨0, 1, 0⟩ ⟨INVALID_GENERATION, 0, INVALID_GENERATION⟩ false []).result =
          .ok ch g ∧
        (ch = true ↔ ∃ t,
          (GenerationsList.mk INVALID_GENERATION 0 INVALID_GENERATION).is_valid t = true ∧
          (GenerationsList.mk INVALID_GENERATION 0 INVALID_GENERATION).get t <
            (FlushResult.mk ⟨0, 1, 0⟩ 0 ⟨0, 1, 0⟩ false).snapshot.get t) ∧
        ∀ t, g.get t =
          if (GenerationsList.mk INVALID_GENERATION 0 INVALID_GENERATION).is_valid t = true ∧
            (GenerationsList.mk INVALID_GENERATION 0 INVALID_GENERATION).get t <
              (FlushResult.mk ⟨0, 1, 0⟩ 0 ⟨0, 1, 0⟩ false).snapshot.get t
          then (FlushResult.mk ⟨0, 1, 0⟩ 0 ⟨0, 1, 0⟩ false).snapshot.get t
          else (GenerationsList.mk INVALID_GENERATION 0 INVALID_GENERATION).get t) ∧
    ((∃ t, (GenerationsList.mk INVALID_GENERATION 0 INVALID_GENERATION).is_valid t = true ∧
        (FlushResult.mk ⟨0, 1, 0⟩ 0 ⟨0, 1, 0⟩ false).snapshot.get t <
          (GenerationsList.mk INVALID_GENERATION 0 INVALID_GENERATION).get t) →
      (check 0 ⟨0, 1, 0⟩ ⟨INVALID_GENERATION, 0, INVALID_GENERATION⟩ false []).result =
        .assertionFailed) :=
  check_nowait_correct 0 ⟨0, 1, 0⟩ ⟨INVALID_GENERATION, 0, INVALID_GENERATION⟩
    ⟨⟨0, 1, 0⟩, 0, ⟨0, 1, 0⟩, false⟩ (by decide)

/-- Claim C7: with an all-invalid generations list, `check` returns false
immediately for either value of `wait`, leaving the ledger, the status word
and the caller's list untouched. -/
theorem check_invalid_short_circuit (status : Nat) (cur gens : GenerationsList)
    (wait : Bool) (awaits : List GenerationsList)
    (h : ∀ t, gens.is_valid t = false) :
    check status cur gens wait awaits = ⟨.ok false gens, cur, status⟩ :=
  check_of_any_valid_false ((any_valid_eq_false_iff gens).mpr h)

/-- Witness for C7 at concrete monitor state status `7`, ledger `⟨1, 2, 3⟩`. -/
theorem check_invalid_short_circuit_witness :
    check 7 ⟨1, 2, 3⟩ GenerationsList.invalid true [] =
      ⟨.ok false GenerationsList.invalid, ⟨1, 2, 3⟩, 7⟩ :=
  check_invalid_short_circuit 7 ⟨1, 2, 3⟩ GenerationsList.invalid true []
    (by intro t; cases t <;> decide)

/-- Claim C9: a default-constructed `GenerationsList` has every generation
zero and every topic valid; the explicit `invalid()` constructor has every
generation equal to the sentinel and no topic valid. -/
theorem default_and_invalid_constructors :
    (∀ t, GenerationsList.new.get t = 0 ∧ GenerationsList.new.is_valid t = true) ∧
    (∀ t, GenerationsList.invalid.get t = INVALID_GENERATION ∧
      GenerationsList.invalid.is_valid t = false) := by
  constructor <;> intro t <;> cases t <;> exact ⟨rfl, by decide⟩

/-- Claim C10: whenever `check` returns false, the caller's generations
list is returned exactly as it was passed in, for any arguments. -/
theorem check_false_leaves_gens_unchanged (status : Nat) (cur gens : GenerationsList)
    (wait : Bool) (awaits : List GenerationsList) (g : GenerationsList)
    (h : (check status cur gens wait awaits).result = .ok false g) :
    g = gens := by
  by_cases hv : gens.any_valid = true
  · cases hfr : updated_gens_in_data status cur with
    | none =>
      simp only [check, hv, hfr, Bool.not_true, Bool.false_eq_true, if_false] at h
      exact CheckResult.noConfusion h
    | some fr =>
      rw [check_of_any_valid_true hv hfr] at h
      exact (check_loop_ok_false h).1
  · have hvf : gens.any_valid = false := by
      cases hq : gens.any_valid
      · rfl
      · exact absurd hq hv
    rw [check_of_any_valid_false hvf] at h
    have h' : CheckResult.ok false gens = CheckResult.ok false g := h
    injection h' with h1 h2
    exact h2.symm

/-- Witness for C10: a false-returning `check` on a caller list that is
up to date with the ledger hands the list back unchanged. -/
theorem check_false_leaves_gens_unchanged_witness :
    (GenerationsList.mk 5 INVALID_GENERATION 7) = ⟨5, INVALID_GENERATION, 7⟩ :=
  check_false_leaves_gens_unchanged 0 ⟨5, 9, 7⟩ ⟨5, INVALID_GENERATION, 7⟩ false []
    ⟨5, INVALID_GENERATION, 7⟩ (by decide)

/-! ### Coalescing helper lemmas -/

lemma land_topic_bit_ne_zero {x : Nat} (t : Topic) (h : x.testBit t.toIndex = true) :
    x &&& topic_to_bit t ≠ 0 := by
  intro hz
  have hb : (x &&& topic_to_bit t).testBit t.toIndex = false := by
    rw [hz]
    exact Nat.zero_testBit _
  rw [Nat.testBit_and, testBit_topic_to_bit] at hb
  simp [h] at hb

lemma lor_topic_bit_absorb (c : Nat) (t : Topic) (h : c.testBit t.toIndex = true) :
    c ||| topic_to_bit t = c := by
  apply Nat.eq_of_testBit_eq
  intro i
  rw [Nat.testBit_or, testBit_topic_to_bit]
  by_cases hi : i = t.toIndex
  · subst hi
    simp [h]
  · simp [hi]

lemma post_stable (c : Nat) (t : Topic) (hc : c < 128)
    (hbit : c.testBit t.toIndex = true) :
    post c t = some ⟨c, false⟩ := by
  have hOK : c &&& 128 ≠ 0 → c = 128 := fun h =>
    absurd (land_128_eq_zero_of_lt hc) h
  rw [post_eq_of_ok t hOK, land_127_of_lt hc, lor_topic_bit_absorb c t hbit]
  have h3 : (c &&& topic_to_bit t == 0) = false := by
    rw [beq_eq_false_iff_ne]
    exact land_topic_bit_ne_zero t hbit
  rw [h3]
  rfl

lemma postN_stable (c : Nat) (t : Topic) (hc : c < 128)
    (hbit : c.testBit t.toIndex = true) :
    ∀ n, postN c t n = some c := by
  intro n
  induction n with
  | zero => rfl
  | succ m ih =>
    simp only [postN, post_stable c t hc hbit]
    exact ih

lemma postN_eq (s : Nat) (t : Topic) (hOK : s &&& 128 ≠ 0 → s = 128) (n : Nat) :
    postN s t (n + 1) = some ((s &&& 127) ||| topic_to_bit t) := by
  have hc : (s &&& 127) ||| topic_to_bit t < 128 := newStatus_lt_128 s t
  have hbit : ((s &&& 127) ||| topic_to_bit t).testBit t.toIndex = true := by
    rw [Nat.testBit_or, testBit_topic_to_bit]
    simp
  simp only [postN, post_eq_of_ok t hOK]
  exact postN_stable _ t hc hbit n

lemma gens_ext {g1 g2 : GenerationsList} (h : ∀ t, g1.get t = g2.get t) : g1 = g2 := by
  obtain ⟨a, b, c⟩ := g1
  obtain ⟨d, e, f⟩ := g2
  have h1 := h .sighupint
  have h2 := h .sigchld
  have h3 := h .internal_exit
  simp only [GenerationsList.get] at h1 h2 h3
  rw [h1, h2, h3]

lemma any_valid_of_valid {g : GenerationsList} {t : Topic} (h : g.is_valid t = true) :
    g.any_valid = true := by
  rw [any_valid_cases]
  cases t <;> simp [h]

lemma check_nochange (cur2 g : GenerationsList)
    (h : ∀ u, g.is_valid u = true → g.get u = cur2.get u) :
    (check 0 cur2 g false []).result = .ok false g := by
  by_cases hv : g.any_valid = true
  · rw [check_of_any_valid_true hv (flush_unchanged 0 cur2 (Or.inl rfl))]
    obtain ⟨gg, ch, hpass, hiff, hget⟩ :=
      check_pass_correct cur2 g (fun u hu => Nat.le_of_eq (h u hu))
    have hch : ch = false := by
      cases hch : ch
      · rfl
      · obtain ⟨u, hvu, hlt⟩ := hiff.mp hch
        rw [h u hvu] at hlt
        omega
    have hgg : gg = g := by
      apply gens_ext
      intro u
      rw [hget u, if_neg]
      rintro ⟨hvu, hlt⟩
      rw [h u hvu] at hlt
      omega
    show check_loop false cur2 g false [] = .ok false g
    rw [check_loop]
    simp only [hpass, hch, hgg]
    simp
  · have hvf : g.any_valid = false := by
      cases hq : g.any_valid
      · rfl
      · exact absurd hq hv
    rw [check_of_any_valid_false hvf]

/-- Claim C6: `N ≥ 1` consecutive posts to a topic with no intervening
flush increment that topic's generation by between 1 and `N` (in fact by
exactly 1) once flushed, a following `check` reports changed exactly once,
and in the concrete two-post sigchld scenario the blocked checker returns
changed with generation 1. -/
theorem coalescing_soundness (N s : Nat) (cur gens : GenerationsList) (t : Topic)
    (hN : 1 ≤ N) (hOK : s &&& 128 ≠ 0 → s = 128)
    (hvt : gens.is_valid t = true)
    (hup : ∀ u, gens.is_valid u = true → gens.get u = cur.get u) :
    ∃ s1 fr, postN s t N = some s1 ∧ updated_gens_in_data s1 cur = some fr ∧
      cur.get t + 1 ≤ fr.newCurrent.get t ∧ fr.newCurrent.get t ≤ cur.get t + N ∧
      (∃ g1, (check fr.newStatus fr.newCurrent gens false []).result = .ok true g1 ∧
        (check fr.newStatus fr.newCurrent g1 false []).result = .ok false g1) ∧
      (post 128 .sigchld = some ⟨2, true⟩ ∧ post 2 .sigchld = some ⟨2, false⟩ ∧
        updated_gens_in_data 2 GenerationsList.new = some ⟨⟨0, 1, 0⟩, 0, ⟨0, 1, 0⟩, true⟩ ∧
        check 0 GenerationsList.new ⟨INVALID_GENERATION, 0, INVALID_GENERATION⟩ true
          [⟨0, 1, 0⟩] =
          ⟨.ok true ⟨INVALID_GENERATION, 1, INVALID_GENERATION⟩, GenerationsList.new, 0⟩) := by
  obtain ⟨n, rfl⟩ : ∃ n, N = n + 1 := ⟨N - 1, by omega⟩
  have hpostN := postN_eq s t hOK n
  set s1 := (s &&& 127) ||| topic_to_bit t with hs1
  have hs1lt : s1 < 128 := newStatus_lt_128 s t
  have hs1bit : s1.testBit t.toIndex = true := by
    rw [hs1, Nat.testBit_or, testBit_topic_to_bit]
    simp
  have hs1ne0 : s1 ≠ 0 := by
    intro h
    rw [h] at hs1bit
    simp at hs1bit
  have hs1ne128 : s1 ≠ 128 := by omega
  have hw : s1 &&& 128 = 0 := land_128_eq_zero_of_lt hs1lt
  have hflush := flush_updates s1 cur hs1ne0 hs1ne128 hw
  set fold := all_topics.foldl
    (fun c tt => if s1 &&& topic_to_bit tt != 0 then c.set tt (c.get tt + 1) else c) cur
    with hfolddef
  have hbits : s1 &&& topic_to_bit t ≠ 0 := land_topic_bit_ne_zero t hs1bit
  have hgt : fold.get t = cur.get t + 1 := by
    rw [hfolddef, flush_fold_get, if_pos (by simp [bne_iff_ne, hbits])]
  have hmono : ∀ u, cur.get u ≤ fold.get u := by
    intro u
    rw [hfolddef, flush_fold_get]
    split <;> omega
  refine ⟨s1, ⟨fold, 0, fold, true⟩, hpostN, hflush, ?_, ?_, ?_,
    by decide, by decide, by decide, by decide⟩
  · show cur.get t + 1 ≤ fold.get t
    omega
  · show fold.get t ≤ cur.get t + (n + 1)
    omega
  · have hle2 : ∀ u, gens.is_valid u = true → gens.get u ≤ fold.get u := by
      intro u hu
      rw [hup u hu]
      exact hmono u
    have hv : gens.any_valid = true := any_valid_of_valid hvt
    obtain ⟨g1, ch, hpass, hiff, hget⟩ := check_pass_correct fold gens hle2
    have hch : ch = true := hiff.mpr ⟨t, hvt, by rw [hup t hvt, hgt]; omega⟩
    refine ⟨g1, ?_, ?_⟩
    · show (check 0 fold gens false []).result = .ok true g1
      rw [check_of_any_valid_true hv (flush_unchanged 0 fold (Or.inl rfl))]
      show check_loop false fold gens false [] = .ok true g1
      rw [check_loop]
      simp only [hpass, hch]
      simp
    · show (check 0 fold g1 false []).result = .ok false g1
      apply check_nochange
      intro u hvu
      by_cases hcond : gens.is_valid u = true ∧ gens.get u < fold.get u
      · rw [hget u, if_pos hcond]
      · have hg1u : g1.get u = gens.get u := by rw [hget u, if_neg hcond]
        have hvgu : gens.is_valid u = true := by
          have he : g1.is_valid u = gens.is_valid u := by
            simp [GenerationsList.is_valid, hg1u]
          rw [he] at hvu
          exact hvu
        have heq := hup u hvgu
        have hnlt : ¬ gens.get u < fold.get u := fun hl => hcond ⟨hvgu, hl⟩
        have hm := hmono u
        rw [hg1u]
        omega

/-- Witness for C6: two posts to sigchld from an idle monitor with an
all-zero ledger and a caller interested only in sigchld at generation 0. -/
theorem coalescing_soundness_witness :
    ∃ s1 fr, postN 0 Topic.sigchld 2 = some s1 ∧
      updated_gens_in_data s1 GenerationsList.new = some fr ∧
      GenerationsList.new.get Topic.sigchld + 1 ≤ fr.newCurrent.get Topic.sigchld ∧
      fr.newCurrent.get Topic.sigchld ≤ GenerationsList.new.get Topic.sigchld + 2 ∧
      (∃ g1, (check fr.newStatus fr.newCurrent
          ⟨INVALID_GENERATION, 0, INVALID_GENERATION⟩ false []).result = .ok true g1 ∧
        (check fr.newStatus fr.newCurrent g1 false []).result = .ok false g1) ∧
      (post 128 .sigchld = some ⟨2, true⟩ ∧ post 2 .sigchld = some ⟨2, false⟩ ∧
        updated_gens_in_data 2 GenerationsList.new = some ⟨⟨0, 1, 0⟩, 0, ⟨0, 1, 0⟩, true⟩ ∧
        check 0 GenerationsList.new ⟨INVALID_GENERATION, 0, INVALID_GENERATION⟩ true
          [⟨0, 1, 0⟩] =
          ⟨.ok true ⟨INVALID_GENERATION, 1, INVALID_GENERATION⟩, GenerationsList.new, 0⟩) :=
  coalescing_soundness 2 0 GenerationsList.new ⟨INVALID_GENERATION, 0, INVALID_GENERATION⟩
    Topic.sigchld (by decide) (by decide) (by decide)
    (by intro u; cases u <;> decide)

/-! ### Reachable-state invariants -/

lemma post_some_newStatus {s : Nat} {t : Topic} {r : PostIntent} (h : post s t = some r) :
    r.newStatus = (s &&& 127) ||| topic_to_bit t := by
  simp only [post, STATUS_NEEDS_WAKEUP] at h
  have h255 : (255 ^^^ (128 : Nat)) = 127 := rfl
  rw [h255] at h
  split at h
  · exact Option.noConfusion h
  · split at h
    · simp only [Option.some.injEq] at h
      rw [← h]
    · split at h
      · simp only [Option.some.injEq] at h
        rw [← h]
      · simp only [Option.some.injEq] at h
        rw [← h]

/-- The inductive invariant tying the status word to the reader election:
the status word is a `u8` that is either exactly the wakeup sentinel or
below it, a cleared reader flag means no thread is inside or just past the
semaphore wait, and at most one thread is ever non-`out`. -/
def MonitorInv (s : MState) : Prop :=
  (s.status = 128 ∨ s.status < 128) ∧
  (s.has_reader = false → ∀ n, s.threads n = Phase.out) ∧
  (∀ m n, s.threads m ≠ Phase.out → s.threads n ≠ Phase.out → m = n)

lemma inv_init : MonitorInv initState := by
  refine ⟨Or.inr (by decide), fun _ n => rfl, fun m n hm _ => ?_⟩
  exact absurd rfl hm

lemma inv_step {a b : MState} (hInv : MonitorInv a) (hs : Step a b) : MonitorInv b := by
  obtain ⟨hst, hrd, huniq⟩ := hInv
  cases hs with
  | post t r hr =>
    refine ⟨Or.inr ?_, hrd, huniq⟩
    rw [post_some_newStatus hr]
    exact newStatus_lt_128 _ _
  | flush fr hfr =>
    refine ⟨?_, hrd, huniq⟩
    rcases flush_status_cases hfr with h | h
    · show fr.newStatus = 128 ∨ fr.newStatus < 128
      rw [h]
      exact hst
    · show fr.newStatus = 128 ∨ fr.newStatus < 128
      rw [h]
      exact Or.inr (by decide)
  | becomeReader tid hout hnr hstz =>
    refine ⟨Or.inl rfl, ?_, ?_⟩
    · intro hfalse n
      exact absurd hfalse (by simp)
    · intro m n hm hn
      have hall := hrd hnr
      by_cases hmt : m = tid
      · by_cases hnt : n = tid
        · rw [hmt, hnt]
        · exfalso
          apply hn
          show (if n = tid then Phase.reading else a.threads n) = Phase.out
          rw [if_neg hnt]
          exact hall n
      · exfalso
        apply hm
        show (if m = tid then Phase.reading else a.threads m) = Phase.out
        rw [if_neg hmt]
        exact hall m
  | wake tid hread hsem =>
    refine ⟨hst, ?_, ?_⟩
    · intro hfalse
      exfalso
      have hq := hrd hfalse tid
      rw [hread] at hq
      exact Phase.noConfusion hq
    · intro m n hm hn
      have hm' : a.threads m ≠ Phase.out := by
        by_cases hmt : m = tid
        · rw [hmt, hread]
          simp
        · intro hc
          apply hm
          show (if m = tid then Phase.waking else a.threads m) = Phase.out
          rw [if_neg hmt]
          exact hc
      have hn' : a.threads n ≠ Phase.out := by
        by_cases hnt : n = tid
        · rw [hnt, hread]
          simp
        · intro hc
          apply hn
          show (if n = tid then Phase.waking else a.threads n) = Phase.out
          rw [if_neg hnt]
          exact hc
      exact huniq m n hm' hn'
  | finishWake tid hwak =>
    refine ⟨hst, ?_, ?_⟩
    · intro _ n
      by_cases hnt : n = tid
      · show (if n = tid then Phase.out else a.threads n) = Phase.out
        rw [if_pos hnt]
      · show (if n = tid then Phase.out else a.threads n) = Phase.out
        rw [if_neg hnt]
        by_cases hc : a.threads n = Phase.out
        · exact hc
        · exact absurd (huniq n tid hc (by rw [hwak]; simp)) hnt
    · intro m n hm hn
      have hm' : a.threads m ≠ Phase.out := by
        by_cases hmt : m = tid
        · exfalso
          apply hm
          show (if m = tid then Phase.out else a.threads m) = Phase.out
          rw [if_pos hmt]
        · intro hc
          apply hm
          show (if m = tid then Phase.out else a.threads m) = Phase.out
          rw [if_neg hmt]
          exact hc
      have hn' : a.threads n ≠ Phase.out := by
        by_cases hnt : n = tid
        · exfalso
          apply hn
          show (if n = tid then Phase.out else a.threads n) = Phase.out
          rw [if_pos hnt]
        · intro hc
          apply hn
          show (if n = tid then Phase.out else a.threads n) = Phase.out
          rw [if_neg hnt]
          exact hc
      exact huniq m n hm' hn'

lemma reach_inv {a b : MState} (hInv : MonitorInv a) (h : Reach a b) : MonitorInv b := by
  induction h with
  | refl => exact hInv
  | tail hr hs ih => exact inv_step ih hs

lemma step_mono {a b : MState} (hs : Step a b) (t : Topic) :
    a.current.get t ≤ b.current.get t := by
  cases hs with
  | post tp r hr => exact Nat.le_refl _
  | flush fr hfr => exact flush_mono hfr t
  | becomeReader tid h1 h2 h3 => exact Nat.le_refl _
  | wake tid h1 h2 => exact Nat.le_refl _
  | finishWake tid h1 => exact Nat.le_refl _

/-- Claim C1: along any sequence of monitor steps (post, flush, reader
election, wakeup), every topic's ledger generation is monotonically
non-decreasing: a later observation is at least an earlier one. -/
theorem ledger_generation_monotone (a b : MState) (h : Reach a b) (t : Topic) :
    a.current.get t ≤ b.current.get t := by
  induction h with
  | refl => exact Nat.le_refl _
  | tail hr hs ih => exact Nat.le_trans ih (step_mono hs t)

/-- Witness for C1: a two-step trace from the initial state — post sigchld,
then flush — under which sigchld's generation grows from 0 to 1. -/
theorem ledger_generation_monotone_witness :
    initState.current.get Topic.sigchld ≤
      (GenerationsList.mk 0 1 0).get Topic.sigchld :=
  ledger_generation_monotone initState
    { initState with
      status := 0
      sema := 0
      current := ⟨0, 1, 0⟩ }
    (by
      have h1 : Step initState
          { initState with status := (2 : Nat), sema := (0 : Nat) } := by
        have := Step.post initState Topic.sigchld ⟨2, false⟩ (by decide)
        simpa using this
      have h2 : Step { initState with status := (2 : Nat), sema := (0 : Nat) }
          { initState with status := 0, sema := 0, current := ⟨0, 1, 0⟩ } := by
        have := Step.flush { initState with status := (2 : Nat), sema := (0 : Nat) }
          ⟨⟨0, 1, 0⟩, 0, ⟨0, 1, 0⟩, true⟩ (by decide)
        simpa using this
      exact Reach.tail (Reach.tail (Reach.refl initState) h1) h2)
    Topic.sigchld

/-- Claim C4: in every reachable state, the wakeup-sentinel bit of the
status word never coexists with a topic bit; when the sentinel bit is set
the status word is exactly 128. -/
theorem status_word_invariant (s : MState) (h : Reachable s) :
    (∀ t : Topic, ¬ (s.status &&& STATUS_NEEDS_WAKEUP ≠ 0 ∧
      s.status &&& topic_to_bit t ≠ 0)) ∧
    (s.status &&& STATUS_NEEDS_WAKEUP ≠ 0 → s.status = 128) := by
  have hInv := reach_inv inv_init h
  obtain ⟨hst, -, -⟩ := hInv
  have hsw : s.status &&& STATUS_NEEDS_WAKEUP ≠ 0 → s.status = 128 := by
    intro hne
    rcases hst with h1 | h1
    · exact h1
    · exact absurd (land_128_eq_zero_of_lt h1) hne
  refine ⟨fun t hc => ?_, hsw⟩
  obtain ⟨h1, h2⟩ := hc
  rw [hsw h1] at h2
  exact h2 (by cases t <;> decide)

/-- Witness for C4 at the initial state. -/
theorem status_word_invariant_witness :
    (∀ t : Topic, ¬ (initState.status &&& STATUS_NEEDS_WAKEUP ≠ 0 ∧
      initState.status &&& topic_to_bit t ≠ 0)) ∧
    (initState.status &&& STATUS_NEEDS_WAKEUP ≠ 0 → initState.status = 128) :=
  status_word_invariant initState (Reach.refl initState)

/-- Claim C8: in every reachable state, at most one thread is inside the
notifier's blocking wait: any two threads in the `reading` phase are equal. -/
theorem single_reader_exclusivity (s : MState) (h : Reachable s) (m n : Nat)
    (hm : s.threads m = Phase.reading) (hn : s.threads n = Phase.reading) :
    m = n := by
  have hInv := reach_inv inv_init h
  refine hInv.2.2 m n ?_ ?_
  · rw [hm]
    simp
  · rw [hn]
    simp

/-- Witness for C8: after thread 0 is elected reader from the initial
state, it is the unique thread inside the wait. -/
theorem single_reader_exclusivity_witness : (0 : Nat) = 0 :=
  single_reader_exclusivity
    { initState with
      status := STATUS_NEEDS_WAKEUP
      has_reader := true
      threads := fun k => if k = 0 then Phase.reading else initState.threads k }
    (Reach.tail (Reach.refl initState) (Step.becomeReader initState 0 rfl rfl rfl))
    0 0 rfl rfl
